import Mathlib

/-!
Shallow embedding of the prompt-compression evaluation platform
(evaluator, repository operations and tasker loop) together with proofs
about the behaviour of the embedded code.

The embedding follows the TypeScript sources:
  * canonical JSON serialization (fast-json-stable-stringify),
  * the evaluator pipeline in src/lib/evaluate.ts,
  * the repository operations in src/lib/database-service.ts,
  * the tasker loop (startTasker / processAttempt) in src/lib/tasker.ts.

External services (the chat-completions endpoint) are modelled as
deterministic oracles passed as function arguments; the database is
modelled as explicit lists of rows threaded through the operations.
-/

namespace PCC

/-! ## Canonical JSON (fast-json-stable-stringify) -/

/-- JSON values, as manipulated by the request-payload builders.  Numbers in
the outbound payloads are integers, so integer numerals suffice. -/
inductive Json where
  | null : Json
  | bool (b : Bool) : Json
  | num (n : Int) : Json
  | str (s : String) : Json
  | arr (elems : List Json) : Json
  | obj (fields : List (String × Json)) : Json

mutual

/-- Boolean structural equality on JSON values (used by test oracles to
recognise concrete request payloads). -/
def Json.beq : Json → Json → Bool
  | .null, .null => true
  | .bool a, .bool b => a == b
  | .num a, .num b => a == b
  | .str a, .str b => a == b
  | .arr a, .arr b => Json.beqElems a b
  | .obj a, .obj b => Json.beqFields a b
  | _, _ => false

/-- Boolean equality on lists of JSON values. -/
def Json.beqElems : List Json → List Json → Bool
  | [], [] => true
  | x :: xs, y :: ys => Json.beq x y && Json.beqElems xs ys
  | _, _ => false

/-- Boolean equality on JSON object field lists. -/
def Json.beqFields : List (String × Json) → List (String × Json) → Bool
  | [], [] => true
  | (k, v) :: xs, (k2, v2) :: ys => k == k2 && Json.beq v v2 && Json.beqFields xs ys
  | _, _ => false

end

/-- Escape of a single character inside a JSON string literal, as done by
JSON.stringify for the quote and backslash characters. -/
def escapeJsonChar (c : Char) : String :=
  if c = '"' then "\\\"" else if c = '\\' then "\\\\" else String.singleton c

/-- JSON string literal encoding (quote, escape, quote). -/
def encodeJsonString (s : String) : String :=
  "\"" ++ String.join (s.toList.map escapeJsonChar) ++ "\""

/-- Lexicographic comparison of character lists by code point, the order
the default JS sort uses on keys. -/
def charListLe : List Char → List Char → Bool
  | [], _ => true
  | _ :: _, [] => false
  | a :: as, b :: bs =>
    if a.toNat < b.toNat then true
    else if b.toNat < a.toNat then false
    else charListLe as bs

/-- Order used by fast-json-stable-stringify on already-serialized object
fields: ascending lexicographic comparison of the keys. -/
def keyLe (a b : String × String) : Prop := charListLe a.1.toList b.1.toList = true

instance : DecidableRel keyLe := fun _ _ => inferInstanceAs (Decidable (_ = true))

instance : IsTotal (String × String) keyLe := by
  constructor
  suffices h : ∀ x y : List Char, charListLe x y = true ∨ charListLe y x = true by
    intro a b
    exact h a.1.toList b.1.toList
  intro x
  induction x with
  | nil => intro y; left; rfl
  | cons a as ih =>
    intro y
    cases y with
    | nil => right; rfl
    | cons b bs =>
      by_cases hab : a.toNat < b.toNat
      · left; simp [charListLe, hab]
      · by_cases hba : b.toNat < a.toNat
        · right; simp [charListLe, hba]
        · rcases ih bs with h | h
          · left; simp [charListLe, hab, hba, h]
          · right; simp [charListLe, hab, hba, h]

instance : IsTrans (String × String) keyLe := by
  constructor
  suffices h : ∀ x y z : List Char,
      charListLe x y = true → charListLe y z = true → charListLe x z = true by
    intro a b c hab hbc
    exact h a.1.toList b.1.toList c.1.toList hab hbc
  intro x
  induction x with
  | nil => intro y z _ _; rfl
  | cons a as ih =>
    intro y z hxy hyz
    cases y with
    | nil => simp [charListLe] at hxy
    | cons b bs =>
      cases z with
      | nil => simp [charListLe] at hyz
      | cons c cs =>
        simp only [charListLe] at hxy hyz ⊢
        by_cases hab : a.toNat < b.toNat
        · by_cases hbc : b.toNat < c.toNat
          · simp [show a.toNat < c.toNat by omega]
          · by_cases hcb : c.toNat < b.toNat
            · simp [hbc, hcb] at hyz
            · simp [show a.toNat < c.toNat by omega]
        · by_cases hba : b.toNat < a.toNat
          · simp [hab, hba] at hxy
          · by_cases hbc : b.toNat < c.toNat
            · simp [show a.toNat < c.toNat by omega]
            · by_cases hcb : c.toNat < b.toNat
              · simp [hbc, hcb] at hyz
              · simp only [if_neg hab, if_neg hba] at hxy
                simp only [if_neg hbc, if_neg hcb] at hyz
                simp only [if_neg (show ¬a.toNat < c.toNat by omega),
                  if_neg (show ¬c.toNat < a.toNat by omega)]
                exact ih bs cs hxy hyz

/-- Rendering of sorted, already-serialized object fields, comma separated. -/
def renderFields : List (String × String) → String
  | [] => ""
  | [(k, v)] => encodeJsonString k ++ ":" ++ v
  | (k, v) :: rest => encodeJsonString k ++ ":" ++ v ++ "," ++ renderFields rest

mutual

/-- Canonical serialization of a JSON value: key-sorted object fields,
no whitespace, mirroring fast-json-stable-stringify with the default
comparator. -/
def stableStringify : Json → String
  | Json.null => "null"
  | Json.bool true => "true"
  | Json.bool false => "false"
  | Json.num n => toString n
  | Json.str s => encodeJsonString s
  | Json.arr xs => "[" ++ renderElems xs ++ "]"
  | Json.obj fs =>
      "\x7b" ++ renderFields (List.insertionSort keyLe (serializeFields fs)) ++ "\x7d"

/-- Comma separated serialization of array elements, in order. -/
def renderElems : List Json → String
  | [] => ""
  | [x] => stableStringify x
  | x :: xs => stableStringify x ++ "," ++ renderElems xs

/-- Serialization of each object field value, keeping the key. -/
def serializeFields : List (String × Json) → List (String × String)
  | [] => []
  | (k, v) :: fs => (k, stableStringify v) :: serializeFields fs

end

/-! ## Evaluator (src/lib/evaluate.ts)

The chat-completions endpoint is modelled as a deterministic oracle
`chat : Json → ChatResponse` mapping the outbound request payload to the
fields of the response that the code reads.  Request payloads are carried
as `Json` values; the stored `request_json` strings are their canonical
serializations (JSON.parse of such a string is modelled as the original
payload value). -/

/-- Usage counters reported by the provider. -/
structure Usage where
  prompt_tokens : Nat
  completion_tokens : Nat
  total_tokens : Nat
deriving DecidableEq, Repr

/-- Componentwise accumulation of usage counters (the += statements in
evaluatePrompt and evaluateCompression). -/
def addUsage (a b : Usage) : Usage :=
  ⟨a.prompt_tokens + b.prompt_tokens, a.completion_tokens + b.completion_tokens,
    a.total_tokens + b.total_tokens⟩

/-- Those parts of a chat-completions response that the evaluator reads:
the message content, the parsed answer argument of the first tool call,
and the usage block, each possibly absent. -/
structure ChatResponse where
  content : Option String
  toolAnswer : Option String
  usage : Option Usage

/-- Test case as consumed by the evaluator. -/
structure TestCase where
  id : Nat
  task : String
  options : List String
  correctAnswer : String
deriving DecidableEq, Repr

/-- Tool schema built by buildAnswerQuestionTools: a single function
answer_question whose answer argument is pinned to the options enum. -/
def buildAnswerQuestionTools (options : List String) : Json :=
  Json.arr [Json.obj [
    ("type", Json.str "function"),
    ("function", Json.obj [
      ("strict", Json.bool true),
      ("name", Json.str "answer_question"),
      ("description", Json.str "Return exactly one of the provided options"),
      ("parameters", Json.obj [
        ("type", Json.str "object"),
        ("properties", Json.obj [
          ("answer", Json.obj [
            ("type", Json.str "string"),
            ("enum", Json.arr (options.map Json.str))])]),
        ("required", Json.arr [Json.str "answer"]),
        ("additionalProperties", Json.bool false)])])]]

/-- Chat message object with a role and a content string. -/
def messageJson (role content : String) : Json :=
  Json.obj [("role", Json.str role), ("content", Json.str content)]

/-- Outbound request payload of getModelAnswer, with the fields in source
order (model, messages, tools, tool_choice). -/
def getModelAnswerPayload (task : String) (options : List String) (model : String) : Json :=
  Json.obj [
    ("model", Json.str model),
    ("messages", Json.arr [
      messageJson "system" "Answer user\x27s question by calling answer_question function",
      messageJson "user" task]),
    ("tools", buildAnswerQuestionTools options),
    ("tool_choice", Json.obj [
      ("type", Json.str "function"),
      ("function", Json.obj [("name", Json.str "answer_question")])])]

/-- Result of a successful getModelAnswer call. -/
structure ModelAnswerResult where
  answer : String
  usage : Usage
  requestPayload : Json

/-- Embedding of getModelAnswer: build the payload, query the endpoint,
fail (none) when the response has no tool call or no usage block. -/
def getModelAnswer (chat : Json → ChatResponse) (task : String) (options : List String)
    (model : String) : Option ModelAnswerResult :=
  let payload := getModelAnswerPayload task options model
  let response := chat payload
  match response.toolAnswer with
  | none => none
  | some a =>
    match response.usage with
    | none => none
    | some u => some ⟨a, u, payload⟩

/-- Characters of a string after trimming surrounding whitespace and
lowercasing, modelling the JS trim and toLowerCase chain. -/
def jsTrimLower (s : String) : List Char :=
  (((s.toList.dropWhile Char.isWhitespace).reverse.dropWhile
      Char.isWhitespace).reverse).map Char.toLower

/-- Case-insensitive, whitespace-trimmed comparison of answers. -/
def isCorrect (answer correctAnswer : String) : Bool :=
  jsTrimLower answer == jsTrimLower correctAnswer

/-- Result of evaluating one test case against a model. -/
structure EvaluationResult where
  passed : Bool
  usage : Usage
  requestPayload : Option Json

/-- Iteration loop of evaluatePrompt: up to the given number of attempts,
accumulating usage, returning early with passed = false on a gateway
failure or a wrong answer. -/
def evaluatePromptGo (chat : Json → ChatResponse) (task : String) (options : List String)
    (correctAnswer : String) (model : String) :
    Nat → Usage → Option Json → EvaluationResult
  | 0, acc, last => ⟨true, acc, last⟩
  | n + 1, acc, last =>
    match getModelAnswer chat task options model with
    | none => ⟨false, acc, last⟩
    | some r =>
      let acc2 := addUsage acc r.usage
      if isCorrect r.answer correctAnswer then
        evaluatePromptGo chat task options correctAnswer model n acc2 (some r.requestPayload)
      else ⟨false, acc2, some r.requestPayload⟩

/-- Embedding of evaluatePrompt (never throws to the caller). -/
def evaluatePrompt (chat : Json → ChatResponse) (tc : TestCase) (attempts : Nat)
    (model : String) : EvaluationResult :=
  evaluatePromptGo chat tc.task tc.options tc.correctAnswer model attempts ⟨0, 0, 0⟩ none

/-- Result of a successful getCompressedTask call. -/
structure CompressionOutput where
  compressedTask : String
  usage : Usage
  requestPayload : Json

/-- Outbound request payload of getCompressedTask: system message is the
compressing prompt, user message is the task. -/
def getCompressedTaskPayload (task compressingPrompt model : String) : Json :=
  Json.obj [
    ("model", Json.str model),
    ("messages", Json.arr [messageJson "system" compressingPrompt, messageJson "user" task])]

/-- Embedding of getCompressedTask: fails (none) when the reply content is
absent or empty (JS truthiness of the content) or usage is absent. -/
def getCompressedTask (chat : Json → ChatResponse) (task compressingPrompt model : String) :
    Option CompressionOutput :=
  let payload := getCompressedTaskPayload task compressingPrompt model
  let response := chat payload
  match response.content with
  | none => none
  | some ct =>
    if ct = "" then none
    else
      match response.usage with
      | none => none
      | some u => some ⟨ct, u, payload⟩

/-- Per-test record produced by evaluateCompression. -/
structure TestCompressionResult where
  testCase : TestCase
  uncompressedResult : EvaluationResult
  compressedResult : EvaluationResult
  compressionUsage : Usage
  compressionRatio : ℚ
  compressedTask : String
  requestJson : String

/-- Payload of an optional stored request (the source writes null when a
request_json string is absent). -/
def optPayloadJson : Option Json → Json
  | none => Json.null
  | some j => j

/-- Body of the per-test loop of evaluateCompression: evaluate the
uncompressed task, compress the task (a failure propagates as none),
evaluate the compressed task, then compute the metrics.  The ratio is the
quotient of the two prompt_tokens counts, guarded on the numerator being
positive (at a zero denominator with positive numerator the JS code yields
Infinity; the rational embedding returns 0 there, and theorems about the
quotient therefore assume a positive denominator). -/
def evaluateCompressionStep (chat : Json → ChatResponse) (compressingPrompt : String)
    (compressionModel evaluationModel : String) (attemptsPerTest : Nat) (tc : TestCase) :
    Option TestCompressionResult :=
  let u := evaluatePrompt chat tc attemptsPerTest evaluationModel
  match getCompressedTask chat tc.task compressingPrompt compressionModel with
  | none => none
  | some comp =>
    let ctc : TestCase := { tc with task := comp.compressedTask }
    let c := evaluatePrompt chat ctc attemptsPerTest evaluationModel
    let uncompressedPromptTokens := u.usage.prompt_tokens
    let compressedPromptTokens := c.usage.prompt_tokens
    let ratio : ℚ :=
      if 0 < uncompressedPromptTokens then
        (uncompressedPromptTokens : ℚ) / (compressedPromptTokens : ℚ)
      else 0
    let requests := Json.obj [
      ("compression", comp.requestPayload),
      ("evaluationUncompressed", optPayloadJson u.requestPayload),
      ("evaluationCompressed", optPayloadJson c.requestPayload)]
    some ⟨tc, u, c, comp.usage, ratio, comp.compressedTask, stableStringify requests⟩

/-- For loop of evaluateCompression over the test cases, collecting one
record per test case; a thrown compression call propagates as none. -/
def evaluateCompressionLoop (chat : Json → ChatResponse) (compressingPrompt : String)
    (compressionModel evaluationModel : String) (attemptsPerTest : Nat) :
    List TestCase → Option (List TestCompressionResult)
  | [] => some []
  | tc :: rest =>
    match evaluateCompressionStep chat compressingPrompt compressionModel evaluationModel
        attemptsPerTest tc with
    | none => none
    | some r =>
      match evaluateCompressionLoop chat compressingPrompt compressionModel evaluationModel
          attemptsPerTest rest with
      | none => none
      | some rs => some (r :: rs)

/-- Embedding of the per-test half of evaluateCompression: the results list
(one record per test case); none when a compression call throws. -/
def evaluateCompression (chat : Json → ChatResponse) (testCases : List TestCase)
    (compressingPrompt : String) (compressionModel evaluationModel : String)
    (attemptsPerTest : Nat) : Option (List TestCompressionResult) :=
  evaluateCompressionLoop chat compressingPrompt compressionModel evaluationModel
    attemptsPerTest testCases

/-! ## Data model (src/api/entities)

The relational store is modelled as explicit lists of rows.  The status
enum is referenced throughout the sources (imported from the entity
module); its definition is modelled from the spec: status is one of
PENDING, VALID, FAILED. -/

/-- Status of a test result.  Modelled from the spec: the three-value enum
PENDING / VALID / FAILED referenced by the tasker and repository code. -/
inductive TestResultStatus where
  | PENDING : TestResultStatus
  | VALID : TestResultStatus
  | FAILED : TestResultStatus
deriving DecidableEq, Repr

/-- Row of the test table (entity Test): generated id, evaluation model,
canonical payload, active flag, and the cached uncompressed token count
(nullable; the tasker reads test.totalTokens with a zero fallback). -/
structure TestRow where
  id : Nat
  model : String
  payload : String
  isActive : Bool
  totalTokens : Option Nat
deriving DecidableEq, Repr

/-- Row of the test_result table (entity TestResult): composite primary
key (attempt_id, test_id), status, and the nullable outcome columns. -/
structure TestResultRow where
  attemptId : Nat
  testId : Nat
  status : TestResultStatus
  compressedPrompt : Option String
  compressionRatio : Option ℚ
  requestJson : Option String
deriving DecidableEq, Repr

/-- Row of the attempt table (entity Attempt): id, created-at timestamp,
the compressing prompt, compression model, owner login, and the nullable
average_compression_ratio completion marker. -/
structure AttemptRow where
  id : Nat
  timestamp : Nat
  compressingPrompt : String
  model : String
  login : String
  averageCompressionRatio : Option ℚ
deriving DecidableEq, Repr

/-- Database state visible to the tasker. -/
structure Db where
  tests : List TestRow
  attempts : List AttemptRow
  testResults : List TestResultRow
deriving DecidableEq, Repr

/-- Test result rows of one attempt. -/
def resultsFor (trs : List TestResultRow) (attemptId : Nat) : List TestResultRow :=
  trs.filter (fun tr => tr.attemptId == attemptId)

/-- Lookup of the test_result row with the given composite key. -/
def findTestResult (trs : List TestResultRow) (attemptId testId : Nat) :
    Option TestResultRow :=
  trs.find? (fun tr => tr.attemptId == attemptId && tr.testId == testId)

/-- Rows of the test table with isActive = true. -/
def activeTests (db : Db) : List TestRow :=
  db.tests.filter (fun t => t.isActive)

/-- Count of active tests (testRepo.count with isActive true in
startTasker). -/
def activeTestsCount (db : Db) : Nat :=
  (activeTests db).length

/-! ## Repository operations (src/lib/database-service.ts) -/

/-- Embedding of getTestsToProcess: active tests whose left-joined
test_result row for the attempt is absent or has status PENDING
(condition tr.attempt_id IS NULL OR tr.status = PENDING). -/
def getTestsToProcess (db : Db) (attempt : AttemptRow) : List TestRow :=
  db.tests.filter (fun t =>
    t.isActive &&
      (match findTestResult db.testResults attempt.id t.id with
       | none => true
       | some tr => tr.status == TestResultStatus.PENDING))

/-! ## Tasker (src/lib/tasker.ts, the startTasker variant) -/

/-- Work set computed inline by processAttempt: active tests with no
test_result row at all for the attempt (condition tr.attempt_id IS NULL,
with the join matching rows of this attempt and test). -/
def testsToProcess (db : Db) (attempt : AttemptRow) : List TestRow :=
  db.tests.filter (fun t =>
    t.isActive && (findTestResult db.testResults attempt.id t.id).isNone)

/-- Whether some test_result row of the attempt has status FAILED; in the
selection query a left join on failedTestResult with this condition is
required to be empty (failedTestResult IS NULL). -/
def hasFailedResult (db : Db) (attemptId : Nat) : Bool :=
  (resultsFor db.testResults attemptId).any (fun tr => tr.status == TestResultStatus.FAILED)

/-- COUNT(DISTINCT test.id) of the selection query: the number of distinct
active tests that have at least one test_result row for the attempt (the
test join condition is test.isActive = true, and NULLs of the left join do
not count). -/
def distinctActiveTestedCount (db : Db) (attemptId : Nat) : Nat :=
  (((activeTests db).filter (fun t =>
      (resultsFor db.testResults attemptId).any (fun tr => tr.testId == t.id))).map
    (fun t => t.id)).dedup.length

/-- WHERE and HAVING clauses of the attempt-selection query in
startTasker: average_compression_ratio IS NULL, no FAILED test_result row,
and the distinct active tests already having a result number strictly less
than the count of all active tests. -/
def eligibleForProcessing (db : Db) (a : AttemptRow) : Bool :=
  a.averageCompressionRatio.isNone && !hasFailedResult db a.id &&
    distinctActiveTestedCount db a.id < activeTestsCount db

/-- Accumulator step of ORDER BY timestamp ASC with getOne: keep the row
with the smaller timestamp, the earlier row winning ties. -/
def olderOf (cur cand : AttemptRow) : AttemptRow :=
  if cand.timestamp < cur.timestamp then cand else cur

/-- Fold selecting the first row of minimal timestamp. -/
def chooseOldest : Option AttemptRow → List AttemptRow → Option AttemptRow
  | acc, [] => acc
  | none, a :: rest => chooseOldest (some a) rest
  | some b, a :: rest => chooseOldest (some (olderOf b a)) rest

/-- Embedding of the attempt-selection query of startTasker: among the
eligible attempts, one with the oldest timestamp; none when no attempt is
eligible. -/
def selectNextAttempt (db : Db) : Option AttemptRow :=
  chooseOldest none (db.attempts.filter (eligibleForProcessing db))

/-- Fields of the TestCompressionResult that processAttempt reads from the
evaluateCompression call. -/
structure TaskerEvalOutcome where
  passed : Bool
  compressedTask : String
  compressionRatio : ℚ
  requestJson : String
deriving DecidableEq, Repr

/-- Embedding of repository save on a test_result entity, per the
documented TypeORM contract: if a row with the same primary key already
exists in the store it is updated in place, otherwise the row is
inserted. -/
def saveTestResult (trs : List TestResultRow) (row : TestResultRow) : List TestResultRow :=
  if (findTestResult trs row.attemptId row.testId).isSome then
    trs.map (fun tr =>
      if tr.attemptId == row.attemptId && tr.testId == row.testId then row else tr)
  else trs ++ [row]

/-- Outcome of one processAttempt call: the final test_result table, the
average written by the aggregation step (none when aggregation was never
reached), and whether the per-test loop aborted early. -/
structure ProcessOutcome where
  finalResults : List TestResultRow
  avgWritten : Option ℚ
  aborted : Bool
deriving DecidableEq, Repr

/-- Per-test loop of processAttempt.  claimO says whether the PENDING
claim save succeeds for a given test id (false models the catch branch
taken when another instance owns the row); evalO is the
evaluateCompression call, none modelling a thrown error.  On a throw the
catch finalizes the row as FAILED and returns; on a FAILED outcome the row
is finalized with its metrics and the loop likewise returns; on a VALID
outcome the counters are accumulated and the loop continues.  After the
loop the average (sum over passed tests divided by their count, zero when
none passed) is written. -/
def processGo (claimO : Nat → Bool) (evalO : Nat → Option TaskerEvalOutcome)
    (attemptId : Nat) :
    List TestRow → List TestResultRow → Nat → ℚ → ProcessOutcome
  | [], trs, testsPassed, totalCompressionRatio =>
    ⟨trs,
      some (if 0 < testsPassed then totalCompressionRatio / (testsPassed : ℚ) else 0),
      false⟩
  | t :: rest, trs, testsPassed, totalCompressionRatio =>
    if claimO t.id then
      let trs1 := saveTestResult trs ⟨attemptId, t.id, TestResultStatus.PENDING, none, none, none⟩
      match evalO t.id with
      | none =>
        ⟨saveTestResult trs1 ⟨attemptId, t.id, TestResultStatus.FAILED, none, none, none⟩,
          none, true⟩
      | some r =>
        let row : TestResultRow :=
          ⟨attemptId, t.id,
            if r.passed then TestResultStatus.VALID else TestResultStatus.FAILED,
            some r.compressedTask, some r.compressionRatio, some r.requestJson⟩
        let trs2 := saveTestResult trs1 row
        if r.passed then
          processGo claimO evalO attemptId rest trs2 (testsPassed + 1)
            (totalCompressionRatio + r.compressionRatio)
        else ⟨saveTestResult trs2 row, none, true⟩
    else processGo claimO evalO attemptId rest trs testsPassed totalCompressionRatio

/-- Embedding of processAttempt of the startTasker variant: compute the
work set; when it is empty return without touching anything (the early
return before the loop); otherwise run the per-test loop followed by the
aggregation step. -/
def processAttempt (db : Db) (attempt : AttemptRow) (claimO : Nat → Bool)
    (evalO : Nat → Option TaskerEvalOutcome) : ProcessOutcome :=
  let tests := testsToProcess db attempt
  if tests.isEmpty then ⟨db.testResults, none, false⟩
  else processGo claimO evalO attempt.id tests db.testResults 0 0

/-- Compression ratios of the tests of the work list that this worker
claims and that evaluate to a passed outcome: the VALID results the worker
produces in one processAttempt cycle. -/
def claimedValidRatios (claimO : Nat → Bool) (evalO : Nat → Option TaskerEvalOutcome)
    (tests : List TestRow) : List ℚ :=
  tests.filterMap (fun t =>
    if claimO t.id then
      match evalO t.id with
      | some r => if r.passed then some r.compressionRatio else none
      | none => none
    else none)

/-- State of the startTasker loop: whether the shared data source is
initialized (initialize is called once before the loop; destroy flips the
flag off), the database, and counters of processed attempts and of caught
loop errors. -/
structure LoopState where
  connected : Bool
  db : Db
  processedCount : Nat
  errorCount : Nat
deriving DecidableEq, Repr

/-- Application of a processAttempt outcome to the database: the
test_result table is replaced and, when the aggregation step ran, the
average_compression_ratio of the attempt is set. -/
def applyProcessOutcome (db : Db) (attemptId : Nat) (out : ProcessOutcome) : Db :=
  { db with
    testResults := out.finalResults,
    attempts := db.attempts.map (fun a =>
      if a.id == attemptId then
        match out.avgWritten with
        | some v => { a with averageCompressionRatio := some v }
        | none => a
      else a) }

/-- One iteration of the while-true body of startTasker.  When the
connection has been destroyed, every database operation of the iteration
fails and the surrounding catch merely logs (error counter).  Otherwise
the selection query runs: on a hit the attempt is processed; on a miss the
data source is destroyed before the sleep, and nothing inside the loop
ever re-initializes it. -/
def taskerStep (claimO : Nat → Bool) (evalO : Nat → Option TaskerEvalOutcome)
    (s : LoopState) : LoopState :=
  if s.connected then
    match selectNextAttempt s.db with
    | some a =>
      { s with
        db := applyProcessOutcome s.db a.id (processAttempt s.db a claimO evalO),
        processedCount := s.processedCount + 1 }
    | none => { s with connected := false }
  else { s with errorCount := s.errorCount + 1 }

/-! ## The claim step of processAttempt under repository save semantics

processAttempt claims a test by building a fresh PENDING entity with the
composite key set and calling repository save on it.  Per the documented
TypeORM save contract an entity whose primary key already exists in the
store is updated rather than inserted, so when the row pre-exists the save
sets its status back to PENDING and succeeds; only a concurrent insert
inside the save itself can raise the uniqueness violation that the catch
branch expects. -/

/-- Claim of (attempt_id, test_id) by saving a PENDING entity, under the
documented save contract: an existing row is updated to PENDING and the
call succeeds; an absent row is inserted.  The returned flag says whether
the save succeeded (it always does in this race-free sequential model). -/
def claimTestResult (trs : List TestResultRow) (attemptId testId : Nat) :
    List TestResultRow × Bool :=
  match findTestResult trs attemptId testId with
  | some existing =>
    (saveTestResult trs { existing with status := TestResultStatus.PENDING }, true)
  | none =>
    (saveTestResult trs ⟨attemptId, testId, TestResultStatus.PENDING, none, none, none⟩, true)

/-- Trace of one worker running the claim-then-finalize protocol of
processAttempt on a single (attempt, test) slot. -/
structure WorkerRun where
  table : List TestResultRow
  claimOk : Bool
  finalizedStatus : Option TestResultStatus
deriving DecidableEq, Repr

/-- One worker claims the slot and, when the claim succeeds, finalizes it
by saving the fully evaluated row. -/
def runClaimThenFinalize (trs : List TestResultRow) (attemptId testId : Nat)
    (row : TestResultRow) : WorkerRun :=
  let claim := claimTestResult trs attemptId testId
  if claim.2 then ⟨saveTestResult claim.1 row, true, some row.status⟩
  else ⟨claim.1, false, none⟩

/-- Finalized row worker A writes for (attempt 7, test 1). -/
def exRowA : TestResultRow :=
  ⟨7, 1, TestResultStatus.VALID, some "compressed by A", some 2, some "request A"⟩

/-- Finalized row worker B writes for (attempt 7, test 1). -/
def exRowB : TestResultRow :=
  ⟨7, 1, TestResultStatus.VALID, some "compressed by B", some 3, some "request B"⟩

/-- Worker A runs claim and finalize first, on an empty table. -/
def workerARun : WorkerRun := runClaimThenFinalize [] 7 1 exRowA

/-- Worker B, whose work list was computed before worker A claimed the
slot, runs the same protocol on the table worker A left behind. -/
def workerBRun : WorkerRun := runClaimThenFinalize workerARun.table 7 1 exRowB

/-- The table worker B sees right after its claim save. -/
def workerBAfterClaim : List TestResultRow := (claimTestResult workerARun.table 7 1).1

/-! ## Bulk test ingestion (storeProcessedTestCases) -/

/-- Row of the test table as produced by ingestion. -/
structure StoredTest where
  model : String
  payload : String
  isActive : Bool
  totalTokens : Nat
deriving DecidableEq, Repr

/-- Test case paired with its uncompressed evaluation result, as consumed
by storeProcessedTestCases. -/
structure TestCaseResult where
  testCase : TestCase
  result : EvaluationResult

/-- Canonical payload string stored for a test: the key-sorted
serialization of the datasetName, task, options, correctAnswer object. -/
def testPayload (datasetName : String) (tc : TestCase) : String :=
  stableStringify (Json.obj [
    ("datasetName", Json.str datasetName),
    ("task", Json.str tc.task),
    ("options", Json.arr (tc.options.map Json.str)),
    ("correctAnswer", Json.str tc.correctAnswer)])

/-- Whether the table already holds a row with the same (model, payload)
conflict key. -/
def hasConflict (table : List StoredTest) (e : StoredTest) : Bool :=
  table.any (fun r => r.model == e.model && r.payload == e.payload)

/-- Embedding of the TypeORM upsert with conflictPaths (model, payload)
and skipUpdateIfNoValuesChanged (the ON CONFLICT DO NOTHING behaviour the
source comment names): per entity in order, a row whose conflict key is
already present is left untouched, otherwise the row is inserted; the
result counts the newly inserted rows (the identifiers the call
returns). -/
def upsertTests (table : List StoredTest) : List StoredTest → List StoredTest × Nat
  | [] => (table, 0)
  | e :: es =>
    if hasConflict table e then upsertTests table es
    else
      let res := upsertTests (table ++ [e]) es
      (res.1, res.2 + 1)

/-- Embedding of storeProcessedTestCases: early return 0 on an empty
input, otherwise map every test case result to a test entity (model, the
canonical payload, isActive true, the uncompressed total token count) and
upsert the batch. -/
def storeProcessedTestCases (table : List StoredTest) (testCaseResults : List TestCaseResult)
    (model datasetName : String) : List StoredTest × Nat :=
  if testCaseResults.isEmpty then (table, 0)
  else
    upsertTests table (testCaseResults.map (fun r =>
      ⟨model, testPayload datasetName r.testCase, true, r.result.usage.total_tokens⟩))

/-! ## Concrete states and oracles used by witnesses and counterexamples -/

/-- Claim oracle of a worker that wins every claim race. -/
def alwaysClaim : Nat → Bool := fun _ => true

/-- Evaluation oracle whose every call throws. -/
def neverEval : Nat → Option TaskerEvalOutcome := fun _ => none

/-- Evaluation oracle where every test passes, with compression ratio
equal to the test id. -/
def exEvalAllPass : Nat → Option TaskerEvalOutcome :=
  fun id => some ⟨true, "ct", (id : ℚ), "rj"⟩

/-- Evaluation oracle that throws on test 1 and passes elsewhere. -/
def exEvalFail1 : Nat → Option TaskerEvalOutcome :=
  fun id => if id = 1 then none else some ⟨true, "ct", 1, "rj"⟩

/-- Active test with id 1. -/
def exTest1 : TestRow := ⟨1, "model-eval", "payload1", true, none⟩

/-- Active test with id 2. -/
def exTest2 : TestRow := ⟨2, "model-eval", "payload2", true, some 100⟩

/-- Attempt with id 1 and no average yet. -/
def exA1 : AttemptRow := ⟨1, 0, "shorten", "model-comp", "alice", none⟩

/-- PENDING test_result row for attempt 1, test 1 (a crashed worker left
it behind). -/
def exPendingRow : TestResultRow := ⟨1, 1, TestResultStatus.PENDING, none, none, none⟩

/-- Database with one active test whose result row for attempt 1 is stuck
at PENDING. -/
def exDb5 : Db := ⟨[exTest1], [exA1], [exPendingRow]⟩

/-- Database with two active tests, one attempt and no results. -/
def exDb2 : Db := ⟨[exTest1, exTest2], [exA1], []⟩

/-- Attempt with id 8 and no average yet. -/
def exAttempt8 : AttemptRow := ⟨8, 0, "shorten", "model-comp", "alice", none⟩

/-- Database holding attempt 8 and zero tests. -/
def exDb7 : Db := ⟨[], [exAttempt8], []⟩

/-- Eligible attempt with the older timestamp. -/
def exAttemptOld : AttemptRow := ⟨2, 5, "shorten", "model-comp", "bob", none⟩

/-- Eligible attempt with the newer timestamp. -/
def exAttemptNew : AttemptRow := ⟨3, 9, "shorten", "model-comp", "carol", none⟩

/-- Database with one active test and two eligible attempts. -/
def exDb3 : Db := ⟨[exTest1], [exAttemptNew, exAttemptOld], []⟩

/-- Test case fed to the evaluator in the concrete compression run. -/
def exTestCase : TestCase := ⟨1, "T", ["A"], "A"⟩

/-- Deterministic chat oracle for the concrete compression run: the
compression request returns the reply CT with usage (1, 1, 2); the
evaluation of the original task T answers A with usage (4, 4, 8); the
evaluation of the compressed task CT answers A with usage (2, 0, 2). -/
def exChat : Json → ChatResponse := fun p =>
  if Json.beq p (getCompressedTaskPayload "T" "P" "mc") then
    ⟨some "CT", none, some ⟨1, 1, 2⟩⟩
  else if Json.beq p (getModelAnswerPayload "T" ["A"] "me") then
    ⟨none, some "A", some ⟨4, 4, 8⟩⟩
  else ⟨none, some "A", some ⟨2, 0, 2⟩⟩

/-- Results list of the concrete evaluateCompression run. -/
def exC4list : List TestCompressionResult :=
  (evaluateCompression exChat [exTestCase] "P" "mc" "me" 1).getD []

/-- The single result record of the concrete evaluateCompression run. -/
def exC4r : TestCompressionResult :=
  exC4list.head?.getD
    ⟨exTestCase, ⟨true, ⟨0, 0, 0⟩, none⟩, ⟨true, ⟨0, 0, 0⟩, none⟩, ⟨0, 0, 0⟩, 0, "", ""⟩

/-- Uncompressed evaluation result attached to ingested test cases. -/
def exEval : EvaluationResult := ⟨true, ⟨0, 0, 100⟩, none⟩

/-- Ingestion batch (M, P1), (M, P2), (M, P1): the first and third test
cases have identical task, options and correct answer, hence identical
canonical payloads. -/
def exIngest : List TestCaseResult :=
  [⟨⟨1, "T1", ["A"], "A"⟩, exEval⟩, ⟨⟨2, "T2", ["B"], "B"⟩, exEval⟩,
   ⟨⟨3, "T1", ["A"], "A"⟩, exEval⟩]

/-- Loop state: connected, with attempt 8 and zero tests in the store. -/
def exLoop : LoopState := ⟨true, exDb7, 0, 0⟩

/-! ## Theorems -/

/-- C1: with the claim implemented as a repository save of a PENDING
entity, a worker whose save runs after another worker already owns the
(attempt 7, test 1) slot still succeeds: the documented save contract
updates the existing row (resetting it to PENDING) instead of rejecting
the insert, so both racing workers report a successful claim and both
finalize a non-PENDING status for the same composite key, violating the
at-most-one-writer property the claim states. -/
theorem C1_save_claim_exhibit :
    workerARun.claimOk = true ∧
    workerARun.finalizedStatus = some TestResultStatus.VALID ∧
    workerBRun.claimOk = true ∧
    workerBRun.finalizedStatus = some TestResultStatus.VALID ∧
    (findTestResult workerBAfterClaim 7 1).map (fun tr => tr.status) =
      some TestResultStatus.PENDING ∧
    findTestResult workerBRun.table 7 1 = some exRowB := by
  decide

/-- C5 counterexample: in a database where a crashed worker left the
PENDING row (1, 1), the helper getTestsToProcess readmits test 1, but the
work set that processAttempt of the running tasker actually computes
excludes every test having any test_result row, so the PENDING test is
not readmitted into the work set on the next cycle. -/
theorem C5_counterexample :
    findTestResult exDb5.testResults exA1.id exTest1.id = some exPendingRow ∧
    exPendingRow.status = TestResultStatus.PENDING ∧
    getTestsToProcess exDb5 exA1 = [exTest1] ∧
    testsToProcess exDb5 exA1 = [] := by
  decide

/-- C7 counterexample: attempt 8 exists while zero active tests exist; on
the first poll the selection query returns no attempt at all (the strict
count inequality is unsatisfiable at zero active tests), and even a direct
processAttempt call returns through the empty-work-set early return
without writing any average, so attempt 8 does not become terminal. -/
theorem C7_counterexample :
    selectNextAttempt exDb7 = none ∧
    testsToProcess exDb7 exAttempt8 = [] ∧
    (processAttempt exDb7 exAttempt8 alwaysClaim neverEval).avgWritten = none ∧
    (taskerStep alwaysClaim neverEval exLoop).db.attempts = [exAttempt8] := by
  decide

/-- Helper: the compression ratio field of every record produced by the
per-test body of evaluateCompression is the prompt-token quotient guarded
on the numerator. -/
theorem evaluateCompressionStep_ratio {chat : Json → ChatResponse}
    {compressingPrompt compressionModel evaluationModel : String} {attemptsPerTest : Nat}
    {tc : TestCase} {r : TestCompressionResult}
    (h : evaluateCompressionStep chat compressingPrompt compressionModel evaluationModel
      attemptsPerTest tc = some r) :
    r.compressionRatio =
      if 0 < r.uncompressedResult.usage.prompt_tokens then
        (r.uncompressedResult.usage.prompt_tokens : ℚ) /
          (r.compressedResult.usage.prompt_tokens : ℚ)
      else 0 := by
  rcases hcomp : getCompressedTask chat tc.task compressingPrompt compressionModel with _ | comp
  · simp [evaluateCompressionStep, hcomp] at h
  · simp only [evaluateCompressionStep, hcomp, Option.some.injEq] at h
    subst h
    rfl

/-- Helper: every member of the results list of evaluateCompression comes
from the per-test body applied to some test case. -/
theorem evaluateCompression_mem {chat : Json → ChatResponse} {testCases : List TestCase}
    {compressingPrompt compressionModel evaluationModel : String} {attemptsPerTest : Nat}
    {rs : List TestCompressionResult} {r : TestCompressionResult}
    (h : evaluateCompression chat testCases compressingPrompt compressionModel evaluationModel
      attemptsPerTest = some rs) (hr : r ∈ rs) :
    ∃ tc, evaluateCompressionStep chat compressingPrompt compressionModel evaluationModel
      attemptsPerTest tc = some r := by
  induction testCases generalizing rs with
  | nil =>
    simp only [evaluateCompression, evaluateCompressionLoop, Option.some.injEq] at h
    subst h
    simp at hr
  | cons tc rest ih =>
    rcases hstep : evaluateCompressionStep chat compressingPrompt compressionModel
        evaluationModel attemptsPerTest tc with _ | y
    · simp [evaluateCompression, evaluateCompressionLoop, hstep] at h
    · rcases hrest : evaluateCompressionLoop chat compressingPrompt compressionModel
          evaluationModel attemptsPerTest rest with _ | ys
      · simp [evaluateCompression, evaluateCompressionLoop, hstep, hrest] at h
      · simp only [evaluateCompression, evaluateCompressionLoop, hstep, hrest,
          Option.some.injEq] at h
        subst h
        rcases List.mem_cons.mp hr with hEq | hMem
        · subst hEq
          exact ⟨tc, hstep⟩
        · exact ih (by simpa [evaluateCompression] using hrest) hMem

/-- C4 counterexample: in the concrete run the compressed evaluation has
usage total_tokens 2 (a positive denominator) and the uncompressed
evaluation has total_tokens 8, so the claimed formula yields 4, but the
code computes the ratio from the prompt_tokens counts (4 and 2) and
returns 2. -/
theorem C4_counterexample :
    exC4r.compressionRatio = 2 ∧
    exC4r.uncompressedResult.usage.total_tokens = 8 ∧
    exC4r.compressedResult.usage.total_tokens = 2 ∧
    (exC4r.uncompressedResult.usage.total_tokens : ℚ) /
        (exC4r.compressedResult.usage.total_tokens : ℚ) = 4 ∧
    exC4r.compressionRatio ≠
      (exC4r.uncompressedResult.usage.total_tokens : ℚ) /
        (exC4r.compressedResult.usage.total_tokens : ℚ) := by
  have hlist : evaluateCompression exChat [exTestCase] "P" "mc" "me" 1 = some [exC4r] := by
    rfl
  obtain ⟨tc, hstep⟩ := evaluateCompression_mem hlist (List.mem_singleton_self exC4r)
  have hr := evaluateCompressionStep_ratio hstep
  have h1 : exC4r.uncompressedResult.usage.prompt_tokens = 4 := by decide
  have h2 : exC4r.compressedResult.usage.prompt_tokens = 2 := by decide
  have h3 : exC4r.uncompressedResult.usage.total_tokens = 8 := by decide
  have h4 : exC4r.compressedResult.usage.total_tokens = 2 := by decide
  rw [h1, h2] at hr
  norm_num at hr
  rw [h3, h4, hr]
  norm_num

/-- C4 (amended): for every record of the results list returned by
evaluateCompression, the compression ratio equals the prompt_tokens of the
uncompressed evaluation divided by the prompt_tokens of the compressed
evaluation when the numerator is positive, and 0 otherwise; stated for a
positive compressed prompt_tokens count, where the JS quotient agrees with
rational division. -/
theorem C4_compression_ratio (chat : Json → ChatResponse) (testCases : List TestCase)
    (compressingPrompt compressionModel evaluationModel : String) (attemptsPerTest : Nat)
    (rs : List TestCompressionResult) (r : TestCompressionResult)
    (h : evaluateCompression chat testCases compressingPrompt compressionModel
      evaluationModel attemptsPerTest = some rs)
    (hr : r ∈ rs)
    (hden : 0 < r.compressedResult.usage.prompt_tokens) :
    r.compressionRatio =
      if 0 < r.uncompressedResult.usage.prompt_tokens then
        (r.uncompressedResult.usage.prompt_tokens : ℚ) /
          (r.compressedResult.usage.prompt_tokens : ℚ)
      else 0 := by
  obtain ⟨tc, hstep⟩ := evaluateCompression_mem h hr
  exact evaluateCompressionStep_ratio hstep

/-- Witness for C4 (amended): the theorem applied to the concrete
evaluateCompression run. -/
theorem C4_compression_ratio_witness :
    exC4r.compressionRatio =
      if 0 < exC4r.uncompressedResult.usage.prompt_tokens then
        (exC4r.uncompressedResult.usage.prompt_tokens : ℚ) /
          (exC4r.compressedResult.usage.prompt_tokens : ℚ)
      else 0 :=
  C4_compression_ratio exChat [exTestCase] "P" "mc" "me" 1 [exC4r] exC4r (by rfl)
    (List.mem_singleton_self exC4r) (by decide)

/-- Helper: when the per-test loop runs to completion (no abort), the
written average is determined by the accumulators plus the claimed
passing tests of the remaining work list. -/
theorem processGo_avg (claimO : Nat → Bool) (evalO : Nat → Option TaskerEvalOutcome)
    (attemptId : Nat) :
    ∀ (tests : List TestRow) (trs : List TestResultRow) (tp : Nat) (tr : ℚ),
    (processGo claimO evalO attemptId tests trs tp tr).aborted = false →
    (processGo claimO evalO attemptId tests trs tp tr).avgWritten =
      some (if 0 < tp + (claimedValidRatios claimO evalO tests).length then
        (tr + (claimedValidRatios claimO evalO tests).sum) /
          ((tp + (claimedValidRatios claimO evalO tests).length : Nat) : ℚ)
      else 0) := by
  intro tests
  induction tests with
  | nil =>
    intro trs tp tr _
    simp [processGo, claimedValidRatios]
  | cons t rest ih =>
    intro trs tp tr hab
    by_cases hclaim : claimO t.id
    · rcases heval : evalO t.id with _ | r
      · simp [processGo, hclaim, heval] at hab
      · by_cases hp : r.passed
        · have hcvr : claimedValidRatios claimO evalO (t :: rest) =
              r.compressionRatio :: claimedValidRatios claimO evalO rest := by
            simp [claimedValidRatios, hclaim, heval, hp]
          simp only [processGo, hclaim, heval, hp, if_true, if_pos] at hab ⊢
          rw [ih _ _ _ hab, hcvr]
          have hlen : 0 < tp + (r.compressionRatio :: claimedValidRatios claimO evalO rest).length := by
            simp
          have hlen2 : 0 < (tp + 1) + (claimedValidRatios claimO evalO rest).length := by
            omega
          rw [if_pos hlen2, if_pos hlen]
          have hnum : tr + (r.compressionRatio + (claimedValidRatios claimO evalO rest).sum) =
              tr + (r.compressionRatio :: claimedValidRatios claimO evalO rest).sum := by
            simp
          have hden : ((tp + 1) + (claimedValidRatios claimO evalO rest).length : Nat) =
              (tp + (r.compressionRatio :: claimedValidRatios claimO evalO rest).length : Nat) := by
            simp
            omega
          rw [← add_assoc] at hnum
          rw [hnum, hden]
        · simp [processGo, hclaim, heval, hp] at hab
    · have hcvr : claimedValidRatios claimO evalO (t :: rest) =
          claimedValidRatios claimO evalO rest := by
        simp [claimedValidRatios, hclaim]
      simp only [processGo, hclaim, if_false, Bool.false_eq_true] at hab ⊢
      rw [ih _ _ _ hab, hcvr]

/-- C2: when processAttempt of the startTasker variant finishes the
per-test loop of a nonempty work set without abort, the written
average_compression_ratio is the sum of the compression ratios of the
VALID results this worker produced in the cycle divided by their count,
and 0 when that count is 0. -/
theorem C2_aggregation (db : Db) (attempt : AttemptRow) (claimO : Nat → Bool)
    (evalO : Nat → Option TaskerEvalOutcome)
    (hne : testsToProcess db attempt ≠ [])
    (hab : (processAttempt db attempt claimO evalO).aborted = false) :
    (processAttempt db attempt claimO evalO).avgWritten =
      some (if (claimedValidRatios claimO evalO (testsToProcess db attempt)).length = 0 then 0
        else (claimedValidRatios claimO evalO (testsToProcess db attempt)).sum /
          ((claimedValidRatios claimO evalO (testsToProcess db attempt)).length : ℚ)) := by
  have hemp : (testsToProcess db attempt).isEmpty = false := by
    rcases h : testsToProcess db attempt with _ | ⟨x, xs⟩
    · exact absurd h hne
    · rfl
  simp only [processAttempt, hemp, Bool.false_eq_true, if_false] at hab ⊢
  rw [processGo_avg claimO evalO attempt.id _ _ _ _ hab]
  congr 1
  rcases Nat.eq_zero_or_pos (claimedValidRatios claimO evalO (testsToProcess db attempt)).length
      with hz | hpos
  · rw [hz]
    simp
  · rw [if_pos (by omega), if_neg (by omega)]
    simp

/-- Witness for C2: the theorem applied to a database with two active
unprocessed tests, a worker winning every claim, and an oracle passing
every test with ratio equal to the test id. -/
theorem C2_aggregation_witness :
    (processAttempt exDb2 exA1 alwaysClaim exEvalAllPass).avgWritten =
      some (if (claimedValidRatios alwaysClaim exEvalAllPass (testsToProcess exDb2 exA1)).length = 0
        then 0
        else (claimedValidRatios alwaysClaim exEvalAllPass (testsToProcess exDb2 exA1)).sum /
          ((claimedValidRatios alwaysClaim exEvalAllPass (testsToProcess exDb2 exA1)).length : ℚ)) :=
  C2_aggregation exDb2 exA1 alwaysClaim exEvalAllPass (by decide) (by decide)

/-- Helper: find? over a map that preserves the predicate value and fixes
every element satisfying the predicate. -/
theorem find?_map_invariant {α : Type} (f : α → α) (p : α → Bool) (l : List α)
    (hp1 : ∀ a, p (f a) = p a) (hp2 : ∀ a, p a = true → f a = a) :
    (l.map f).find? p = l.find? p := by
  induction l with
  | nil => rfl
  | cons a rest ih =>
    rcases hpa : p a with _ | _
    · have hfa : p (f a) = false := by rw [hp1, hpa]
      simp only [List.map_cons, List.find?, hpa, hfa, ih]
    · have hfa : p (f a) = true := by rw [hp1, hpa]
      simp only [List.map_cons, List.find?, hpa, hfa, hp2 a hpa]

/-- Helper: find? ignores an appended element that fails the predicate. -/
theorem find?_append_single {α : Type} (p : α → Bool) (l : List α) (x : α)
    (hx : p x = false) : (l ++ [x]).find? p = l.find? p := by
  induction l with
  | nil => simp [List.find?, hx]
  | cons a rest ih =>
    rcases hpa : p a with _ | _
    · simp only [List.cons_append, List.find?, hpa, List.append_eq]
      exact ih
    · simp only [List.cons_append, List.find?, hpa]

/-- Helper: find? finds an appended matching element when the rest of the
list has no match. -/
theorem find?_append_single_match {α : Type} (p : α → Bool) (l : List α) (x : α)
    (hx : p x = true) (hl : l.find? p = none) : (l ++ [x]).find? p = some x := by
  induction l with
  | nil => simp [List.find?, hx]
  | cons a rest ih =>
    rcases hpa : p a with _ | _
    · simp only [List.find?, hpa] at hl
      simp only [List.cons_append, List.find?, hpa]
      exact ih hl
    · simp only [List.find?, hpa] at hl
      cases hl

/-- Helper: a repository save leaves the lookup of every other composite
key unchanged. -/
theorem findTestResult_save_other (trs : List TestResultRow) (row : TestResultRow)
    (attemptId testId : Nat) (h : ¬(row.attemptId = attemptId ∧ row.testId = testId)) :
    findTestResult (saveTestResult trs row) attemptId testId =
      findTestResult trs attemptId testId := by
  have hprow : (row.attemptId == attemptId && row.testId == testId) = false := by
    by_contra hc
    simp only [Bool.not_eq_false, Bool.and_eq_true, beq_iff_eq] at hc
    exact h hc
  unfold saveTestResult
  by_cases hs : (findTestResult trs row.attemptId row.testId).isSome
  · rw [if_pos hs]
    unfold findTestResult
    refine find?_map_invariant _ _ _ (fun a => ?_) (fun a hpa => ?_)
    · by_cases hm : (a.attemptId == row.attemptId && a.testId == row.testId) = true
      · have hkey : a.attemptId = row.attemptId ∧ a.testId = row.testId := by
          simpa [Bool.and_eq_true, beq_iff_eq] using hm
        have hpa : (a.attemptId == attemptId && a.testId == testId) = false := by
          by_contra hc
          simp only [Bool.not_eq_false, Bool.and_eq_true, beq_iff_eq] at hc
          exact h ⟨hkey.1 ▸ hc.1, hkey.2 ▸ hc.2⟩
        rw [if_pos hm, hprow, hpa]
      · rw [if_neg hm]
    · by_cases hm : (a.attemptId == row.attemptId && a.testId == row.testId) = true
      · have hkey : a.attemptId = row.attemptId ∧ a.testId = row.testId := by
          simpa [Bool.and_eq_true, beq_iff_eq] using hm
        have hpa' : a.attemptId = attemptId ∧ a.testId = testId := by
          simpa [Bool.and_eq_true, beq_iff_eq] using hpa
        exact absurd ⟨hkey.1 ▸ hpa'.1, hkey.2 ▸ hpa'.2⟩ h
      · rw [if_neg hm]
  · rw [if_neg hs]
    exact find?_append_single _ _ _ hprow

/-- Helper: after a repository save, looking up the saved key yields the
saved row. -/
theorem findTestResult_save_self (trs : List TestResultRow) (row : TestResultRow) :
    findTestResult (saveTestResult trs row) row.attemptId row.testId = some row := by
  have hprow : (row.attemptId == row.attemptId && row.testId == row.testId) = true := by
    simp
  unfold saveTestResult
  by_cases hs : (findTestResult trs row.attemptId row.testId).isSome
  · rw [if_pos hs]
    unfold findTestResult at hs ⊢
    induction trs with
    | nil => simp at hs
    | cons a rest ih =>
      by_cases hm : (a.attemptId == row.attemptId && a.testId == row.testId) = true
      · simp only [List.map_cons, if_pos hm, List.find?, hprow]
      · have hm' : (a.attemptId == row.attemptId && a.testId == row.testId) = false := by
          simpa using hm
        simp only [List.find?, hm', Option.isSome_none] at hs
        rw [List.map_cons, if_neg hm]
        simp only [List.find?, hm']
        exact ih hs
  · rw [if_neg hs]
    have hnone : findTestResult trs row.attemptId row.testId = none := by
      rcases hf : findTestResult trs row.attemptId row.testId with _ | v
      · rfl
      · rw [hf] at hs
        simp at hs
    exact find?_append_single_match _ _ _ hprow hnone

/-- Helper: the per-test loop never writes a row for a test id outside its
work list. -/
theorem processGo_untouched (claimO : Nat → Bool) (evalO : Nat → Option TaskerEvalOutcome)
    (attemptId : Nat) :
    ∀ (tests : List TestRow) (trs : List TestResultRow) (tp : Nat) (tr : ℚ) (tId : Nat),
    (∀ t ∈ tests, t.id ≠ tId) →
    findTestResult (processGo claimO evalO attemptId tests trs tp tr).finalResults
        attemptId tId =
      findTestResult trs attemptId tId := by
  intro tests
  induction tests with
  | nil => intro trs tp tr tId _; rfl
  | cons t rest ih =>
    intro trs tp tr tId hne
    have hti : t.id ≠ tId := hne t (List.mem_cons_self t rest)
    have hrest : ∀ u ∈ rest, u.id ≠ tId := fun u hu => hne u (List.mem_cons_of_mem t hu)
    have hother : ∀ row : TestResultRow, row.testId = t.id →
        ¬(row.attemptId = attemptId ∧ row.testId = tId) := by
      intro row hrow hc
      exact hti (hrow ▸ hc.2)
    by_cases hclaim : claimO t.id
    · rcases heval : evalO t.id with _ | r
      · simp only [processGo, hclaim, heval, if_true]
        rw [findTestResult_save_other _ _ _ _ (hother _ rfl),
          findTestResult_save_other _ _ _ _ (hother _ rfl)]
      · by_cases hp : r.passed
        · simp only [processGo, hclaim, heval, hp, if_true]
          rw [ih _ _ _ _ hrest,
            findTestResult_save_other _ _ _ _ (hother _ rfl),
            findTestResult_save_other _ _ _ _ (hother _ rfl)]
        · simp only [processGo, hclaim, heval, hp, if_true, Bool.false_eq_true, if_false]
          rw [findTestResult_save_other _ _ _ _ (hother _ rfl),
            findTestResult_save_other _ _ _ _ (hother _ rfl),
            findTestResult_save_other _ _ _ _ (hother _ rfl)]
    · simp only [processGo, hclaim, Bool.false_eq_true, if_false]
      exact ih _ _ _ _ hrest

/-- Helper: when the per-test loop reaches a claimed test whose
evaluation throws or fails, after a prefix of claimed tests that all pass,
the loop finalizes that test as FAILED, aborts, writes no average, and
leaves the rows of the remaining tests untouched. -/
theorem processGo_abort (claimO : Nat → Bool) (evalO : Nat → Option TaskerEvalOutcome)
    (attemptId : Nat) :
    ∀ (ts₁ : List TestRow) (t : TestRow) (ts₂ : List TestRow) (trs : List TestResultRow)
      (tp : Nat) (tr : ℚ),
    (∀ u ∈ ts₁, claimO u.id = true → ∃ r, evalO u.id = some r ∧ r.passed = true) →
    claimO t.id = true →
    (evalO t.id = none ∨ ∃ r, evalO t.id = some r ∧ r.passed = false) →
    (processGo claimO evalO attemptId (ts₁ ++ t :: ts₂) trs tp tr).aborted = true ∧
    (processGo claimO evalO attemptId (ts₁ ++ t :: ts₂) trs tp tr).avgWritten = none ∧
    (∃ row, findTestResult
        (processGo claimO evalO attemptId (ts₁ ++ t :: ts₂) trs tp tr).finalResults
        attemptId t.id = some row ∧ row.status = TestResultStatus.FAILED) ∧
    (∀ u ∈ ts₂, u.id ≠ t.id → (∀ v ∈ ts₁, u.id ≠ v.id) →
      findTestResult
          (processGo claimO evalO attemptId (ts₁ ++ t :: ts₂) trs tp tr).finalResults
          attemptId u.id =
        findTestResult trs attemptId u.id) := by
  intro ts₁
  induction ts₁ with
  | nil =>
    intro t ts₂ trs tp tr _ hct hfail
    have hother : ∀ (row : TestResultRow) (uId : Nat), row.testId = t.id → uId ≠ t.id →
        ¬(row.attemptId = attemptId ∧ row.testId = uId) := by
      intro row uId hrow hu hc
      exact hu (hc.2 ▸ hrow)
    rcases hfail with hnone | ⟨r, hre, hrp⟩
    · have hgo : processGo claimO evalO attemptId ([] ++ t :: ts₂) trs tp tr =
          ⟨saveTestResult
              (saveTestResult trs ⟨attemptId, t.id, TestResultStatus.PENDING, none, none, none⟩)
              ⟨attemptId, t.id, TestResultStatus.FAILED, none, none, none⟩, none, true⟩ := by
        simp [processGo, hct, hnone]
      rw [hgo]
      refine ⟨rfl, rfl, ⟨_, findTestResult_save_self _ _, rfl⟩, ?_⟩
      intro u _ hut _
      rw [findTestResult_save_other _ _ _ _ (hother _ u.id rfl hut),
        findTestResult_save_other _ _ _ _ (hother _ u.id rfl hut)]
    · have hgo : processGo claimO evalO attemptId ([] ++ t :: ts₂) trs tp tr =
          ⟨saveTestResult
              (saveTestResult
                (saveTestResult trs
                  ⟨attemptId, t.id, TestResultStatus.PENDING, none, none, none⟩)
                ⟨attemptId, t.id, TestResultStatus.FAILED, some r.compressedTask,
                  some r.compressionRatio, some r.requestJson⟩)
              ⟨attemptId, t.id, TestResultStatus.FAILED, some r.compressedTask,
                some r.compressionRatio, some r.requestJson⟩, none, true⟩ := by
        simp [processGo, hct, hre, hrp]
      rw [hgo]
      refine ⟨rfl, rfl, ⟨_, findTestResult_save_self _ _, rfl⟩, ?_⟩
      intro u _ hut _
      rw [findTestResult_save_other _ _ _ _ (hother _ u.id rfl hut),
        findTestResult_save_other _ _ _ _ (hother _ u.id rfl hut),
        findTestResult_save_other _ _ _ _ (hother _ u.id rfl hut)]
  | cons v ts₁ ih =>
    intro t ts₂ trs tp tr hpre hct hfail
    have hpre' : ∀ u ∈ ts₁, claimO u.id = true → ∃ r, evalO u.id = some r ∧ r.passed = true :=
      fun u hu => hpre u (List.mem_cons_of_mem v hu)
    by_cases hclaim : claimO v.id
    · obtain ⟨r, hre, hrp⟩ := hpre v (List.mem_cons_self v ts₁) hclaim
      have hgo : processGo claimO evalO attemptId ((v :: ts₁) ++ t :: ts₂) trs tp tr =
          processGo claimO evalO attemptId (ts₁ ++ t :: ts₂)
            (saveTestResult
              (saveTestResult trs
                ⟨attemptId, v.id, TestResultStatus.PENDING, none, none, none⟩)
              ⟨attemptId, v.id, TestResultStatus.VALID, some r.compressedTask,
                some r.compressionRatio, some r.requestJson⟩)
            (tp + 1) (tr + r.compressionRatio) := by
        simp [processGo, hclaim, hre, hrp]
      rw [hgo]
      obtain ⟨h1, h2, h3, h4⟩ := ih t ts₂
        (saveTestResult
          (saveTestResult trs ⟨attemptId, v.id, TestResultStatus.PENDING, none, none, none⟩)
          ⟨attemptId, v.id, TestResultStatus.VALID, some r.compressedTask,
            some r.compressionRatio, some r.requestJson⟩)
        (tp + 1) (tr + r.compressionRatio) hpre' hct hfail
      refine ⟨h1, h2, h3, ?_⟩
      intro u hu hut hv
      have huv : u.id ≠ v.id := hv v (List.mem_cons_self v ts₁)
      have hv' : ∀ w ∈ ts₁, u.id ≠ w.id := fun w hw => hv w (List.mem_cons_of_mem v hw)
      have hother : ∀ row : TestResultRow, row.testId = v.id →
          ¬(row.attemptId = attemptId ∧ row.testId = u.id) := by
        intro row hrow hc
        exact huv (hc.2 ▸ hrow)
      rw [h4 u hu hut hv',
        findTestResult_save_other _ _ _ _ (hother _ rfl),
        findTestResult_save_other _ _ _ _ (hother _ rfl)]
    · have hgo : processGo claimO evalO attemptId ((v :: ts₁) ++ t :: ts₂) trs tp tr =
          processGo claimO evalO attemptId (ts₁ ++ t :: ts₂) trs tp tr := by
        simp [processGo, hclaim]
      rw [hgo]
      obtain ⟨h1, h2, h3, h4⟩ := ih t ts₂ trs tp tr hpre' hct hfail
      refine ⟨h1, h2, h3, ?_⟩
      intro u hu hut hv
      exact h4 u hu hut (fun w hw => hv w (List.mem_cons_of_mem v hw))

/-- C6: when the work set splits as ts₁ followed by t and ts₂, every
claimed test of ts₁ passes, the worker claims t, and the evaluation of t
throws or returns a FAILED outcome, processAttempt finalizes t as FAILED
and aborts: it writes no average_compression_ratio in this cycle and the
rows of the tests after t are untouched. -/
theorem C6_abort (db : Db) (attempt : AttemptRow) (claimO : Nat → Bool)
    (evalO : Nat → Option TaskerEvalOutcome) (ts₁ : List TestRow) (t : TestRow)
    (ts₂ : List TestRow)
    (hsplit : testsToProcess db attempt = ts₁ ++ t :: ts₂)
    (hpre : ∀ u ∈ ts₁, claimO u.id = true → ∃ r, evalO u.id = some r ∧ r.passed = true)
    (hct : claimO t.id = true)
    (hfail : evalO t.id = none ∨ ∃ r, evalO t.id = some r ∧ r.passed = false) :
    (processAttempt db attempt claimO evalO).aborted = true ∧
    (processAttempt db attempt claimO evalO).avgWritten = none ∧
    (∃ row, findTestResult (processAttempt db attempt claimO evalO).finalResults
        attempt.id t.id = some row ∧ row.status = TestResultStatus.FAILED) ∧
    (∀ u ∈ ts₂, u.id ≠ t.id → (∀ v ∈ ts₁, u.id ≠ v.id) →
      findTestResult (processAttempt db attempt claimO evalO).finalResults
          attempt.id u.id =
        findTestResult db.testResults attempt.id u.id) := by
  have hemp : (ts₁ ++ t :: ts₂).isEmpty = false := by
    rcases ts₁ with _ | ⟨x, xs⟩ <;> rfl
  simp only [processAttempt, hsplit, hemp, Bool.false_eq_true, if_false]
  exact processGo_abort claimO evalO attempt.id ts₁ t ts₂ db.testResults 0 0 hpre hct hfail

/-- Witness for C6: the theorem applied to the two-test database with an
oracle that throws on test 1. -/
theorem C6_abort_witness :
    (processAttempt exDb2 exA1 alwaysClaim exEvalFail1).aborted = true ∧
    (processAttempt exDb2 exA1 alwaysClaim exEvalFail1).avgWritten = none ∧
    (∃ row, findTestResult (processAttempt exDb2 exA1 alwaysClaim exEvalFail1).finalResults
        exA1.id exTest1.id = some row ∧ row.status = TestResultStatus.FAILED) ∧
    (∀ u ∈ [exTest2], u.id ≠ exTest1.id → (∀ v ∈ ([] : List TestRow), u.id ≠ v.id) →
      findTestResult (processAttempt exDb2 exA1 alwaysClaim exEvalFail1).finalResults
          exA1.id u.id =
        findTestResult exDb2.testResults exA1.id u.id) :=
  C6_abort exDb2 exA1 alwaysClaim exEvalFail1 [] exTest1 [exTest2] (by decide)
    (by intro u hu; cases hu) rfl (Or.inl rfl)

/-- Helper: the fold behind the selection query keeps an element of the
accumulator-or-list whose timestamp is minimal. -/
theorem chooseOldest_spec :
    ∀ (l : List AttemptRow) (c a : AttemptRow),
    chooseOldest (some c) l = some a →
    (a = c ∨ a ∈ l) ∧ a.timestamp ≤ c.timestamp ∧ ∀ b ∈ l, a.timestamp ≤ b.timestamp := by
  intro l
  induction l with
  | nil =>
    intro c a h
    cases h
    exact ⟨Or.inl rfl, le_refl _, fun b hb => absurd hb (List.not_mem_nil b)⟩
  | cons x rest ih =>
    intro c a h
    rw [chooseOldest] at h
    obtain ⟨hmem, hle, hall⟩ := ih (olderOf c x) a h
    have holder : olderOf c x = c ∨ olderOf c x = x := by
      unfold olderOf
      by_cases hx : x.timestamp < c.timestamp
      · exact Or.inr (if_pos hx)
      · exact Or.inl (if_neg hx)
    have holder_le_c : (olderOf c x).timestamp ≤ c.timestamp := by
      unfold olderOf
      by_cases hx : x.timestamp < c.timestamp
      · rw [if_pos hx]; exact le_of_lt hx
      · rw [if_neg hx]
    have holder_le_x : (olderOf c x).timestamp ≤ x.timestamp := by
      unfold olderOf
      by_cases hx : x.timestamp < c.timestamp
      · rw [if_pos hx]
      · rw [if_neg hx]; omega
    refine ⟨?_, ?_, ?_⟩
    · rcases hmem with he | hm
      · rcases holder with hc | hx
        · exact Or.inl (he.trans hc)
        · exact Or.inr (by rw [he, hx]; exact List.mem_cons_self x rest)
      · exact Or.inr (List.mem_cons_of_mem x hm)
    · exact le_trans hle holder_le_c
    · intro b hb
      rcases List.mem_cons.mp hb with hbx | hbr
      · rw [hbx]
        exact le_trans hle holder_le_x
      · exact hall b hbr

/-- Helper: the fold starting from none returns none exactly on the empty
list. -/
theorem chooseOldest_some :
    ∀ (l : List AttemptRow) (c : AttemptRow), (chooseOldest (some c) l).isSome = true := by
  intro l
  induction l with
  | nil => intro c; rfl
  | cons x rest ih => intro c; rw [chooseOldest]; exact ih (olderOf c x)

/-- C3: the attempt-selection query of startTasker returns an attempt of
the table that has a null average_compression_ratio, no FAILED test_result
row, and strictly fewer distinct active tests with a result than there are
active tests, and whose timestamp is minimal among all such attempts; it
returns none exactly when no attempt satisfies those conditions. -/
theorem C3_selection (db : Db) :
    (∀ a, selectNextAttempt db = some a →
      a ∈ db.attempts ∧ a.averageCompressionRatio = none ∧
      hasFailedResult db a.id = false ∧
      distinctActiveTestedCount db a.id < activeTestsCount db ∧
      (∀ b ∈ db.attempts, b.averageCompressionRatio = none →
        hasFailedResult db b.id = false →
        distinctActiveTestedCount db b.id < activeTestsCount db →
        a.timestamp ≤ b.timestamp)) ∧
    (selectNextAttempt db = none ↔
      ∀ b ∈ db.attempts, ¬(b.averageCompressionRatio = none ∧
        hasFailedResult db b.id = false ∧
        distinctActiveTestedCount db b.id < activeTestsCount db)) := by
  have helig : ∀ b, eligibleForProcessing db b = true ↔
      (b.averageCompressionRatio = none ∧ hasFailedResult db b.id = false ∧
        distinctActiveTestedCount db b.id < activeTestsCount db) := by
    intro b
    unfold eligibleForProcessing
    rw [Bool.and_eq_true, Bool.and_eq_true]
    constructor
    · rintro ⟨⟨h1, h2⟩, h3⟩
      refine ⟨Option.isNone_iff_eq_none.mp h1, ?_, by simpa using h3⟩
      rcases hf : hasFailedResult db b.id with _ | _
      · rfl
      · rw [hf] at h2; cases h2
    · rintro ⟨h1, h2, h3⟩
      exact ⟨⟨Option.isNone_iff_eq_none.mpr h1, by rw [h2]; rfl⟩, by simpa using h3⟩
  constructor
  · intro a hsel
    unfold selectNextAttempt at hsel
    rcases hfil : db.attempts.filter (eligibleForProcessing db) with _ | ⟨x, xs⟩
    · rw [hfil] at hsel; cases hsel
    · rw [hfil] at hsel
      rw [chooseOldest] at hsel
      obtain ⟨hmem, hle, hall⟩ := chooseOldest_spec xs x a hsel
      have hax : a ∈ x :: xs := by
        rcases hmem with he | hm
        · rw [he]; exact List.mem_cons_self x xs
        · exact List.mem_cons_of_mem x hm
      have haf : a ∈ db.attempts.filter (eligibleForProcessing db) := by
        rw [hfil]; exact hax
      have hae := List.mem_filter.mp haf
      obtain ⟨h1, h2, h3⟩ := (helig a).mp hae.2
      refine ⟨hae.1, h1, h2, h3, ?_⟩
      intro b hb hb1 hb2 hb3
      have hbf : b ∈ db.attempts.filter (eligibleForProcessing db) :=
        List.mem_filter.mpr ⟨hb, (helig b).mpr ⟨hb1, hb2, hb3⟩⟩
      rw [hfil] at hbf
      rcases List.mem_cons.mp hbf with hbx | hbr
      · rw [hbx]
        exact hle
      · exact hall b hbr
  · constructor
    · intro hsel b hb hc
      have hbf : b ∈ db.attempts.filter (eligibleForProcessing db) :=
        List.mem_filter.mpr ⟨hb, (helig b).mpr hc⟩
      unfold selectNextAttempt at hsel
      rcases hfil : db.attempts.filter (eligibleForProcessing db) with _ | ⟨x, xs⟩
      · rw [hfil] at hbf; cases hbf
      · rw [hfil] at hsel
        rw [chooseOldest] at hsel
        have := chooseOldest_some xs x
        rw [hsel] at this
        cases this
    · intro hall
      unfold selectNextAttempt
      have hfil : db.attempts.filter (eligibleForProcessing db) = [] := by
        rw [List.filter_eq_nil_iff]
        intro b hb
        rw [Bool.not_eq_true]
        rcases he : eligibleForProcessing db b with _ | _
        · rfl
        · exact absurd ((helig b).mp he) (hall b hb)
      rw [hfil]
      rfl

/-- Witness for C3: applied to a database with two eligible attempts,
where the query must return the one with the older timestamp. -/
theorem C3_selection_witness :
    exAttemptOld ∈ exDb3.attempts ∧ exAttemptOld.averageCompressionRatio = none ∧
    hasFailedResult exDb3 exAttemptOld.id = false ∧
    distinctActiveTestedCount exDb3 exAttemptOld.id < activeTestsCount exDb3 ∧
    (∀ b ∈ exDb3.attempts, b.averageCompressionRatio = none →
      hasFailedResult exDb3 b.id = false →
      distinctActiveTestedCount exDb3 b.id < activeTestsCount exDb3 →
      exAttemptOld.timestamp ≤ b.timestamp) :=
  (C3_selection exDb3).1 exAttemptOld (by decide)

/-- C5 (amended): getTestsToProcess of the repository returns exactly the
active tests that have either no test_result row for the attempt or a
PENDING one; however the work set that processAttempt of the running
tasker computes contains exactly the active tests with no test_result row
at all, so a PENDING row left by a crashed worker is not readmitted into
the work set on a subsequent cycle. -/
theorem C5_work_sets (db : Db) (attempt : AttemptRow) (t : TestRow) :
    (t ∈ getTestsToProcess db attempt ↔
      t ∈ db.tests ∧ t.isActive = true ∧
        (findTestResult db.testResults attempt.id t.id = none ∨
          ∃ tr, findTestResult db.testResults attempt.id t.id = some tr ∧
            tr.status = TestResultStatus.PENDING)) ∧
    (t ∈ testsToProcess db attempt ↔
      t ∈ db.tests ∧ t.isActive = true ∧
        findTestResult db.testResults attempt.id t.id = none) := by
  constructor
  · rw [getTestsToProcess, List.mem_filter, Bool.and_eq_true]
    rcases hf : findTestResult db.testResults attempt.id t.id with _ | tr
    · simp [hf]
    · simp only [hf]
      constructor
      · rintro ⟨h1, h2, h3⟩
        exact ⟨h1, h2, Or.inr ⟨tr, rfl, by simpa using h3⟩⟩
      · rintro ⟨h1, h2, h3 | ⟨tr2, htr2, hst⟩⟩
        · cases h3
        · refine ⟨h1, h2, ?_⟩
          have : tr2 = tr := (Option.some_inj.mp htr2).symm
          rw [← this, hst]
          rfl
  · rw [testsToProcess, List.mem_filter, Bool.and_eq_true]
    rcases hf : findTestResult db.testResults attempt.id t.id with _ | tr
    · simp [hf]
    · simp [hf]

/-- Witness for C5 (amended): the two characterizations applied to the
database holding the stuck PENDING row. -/
theorem C5_work_sets_witness :
    (exTest1 ∈ getTestsToProcess exDb5 exA1 ↔
      exTest1 ∈ exDb5.tests ∧ exTest1.isActive = true ∧
        (findTestResult exDb5.testResults exA1.id exTest1.id = none ∨
          ∃ tr, findTestResult exDb5.testResults exA1.id exTest1.id = some tr ∧
            tr.status = TestResultStatus.PENDING)) ∧
    (exTest1 ∈ testsToProcess exDb5 exA1 ↔
      exTest1 ∈ exDb5.tests ∧ exTest1.isActive = true ∧
        findTestResult exDb5.testResults exA1.id exTest1.id = none) :=
  C5_work_sets exDb5 exA1 exTest1

/-- C7 (amended): when zero active tests exist, the selection query never
returns an attempt (the strict count inequality is unsatisfiable at zero),
and processAttempt on any attempt returns through the empty-work-set early
return, leaving the test_result table untouched and writing no
average_compression_ratio, so the attempt does not become terminal. -/
theorem C7_zero_active_tests (db : Db) (attempt : AttemptRow) (claimO : Nat → Bool)
    (evalO : Nat → Option TaskerEvalOutcome) (hact : activeTests db = []) :
    selectNextAttempt db = none ∧
    (processAttempt db attempt claimO evalO).avgWritten = none ∧
    (processAttempt db attempt claimO evalO).finalResults = db.testResults := by
  have hcount : activeTestsCount db = 0 := by
    rw [activeTestsCount, hact]
    rfl
  have hsel : selectNextAttempt db = none := by
    unfold selectNextAttempt
    have hfil : db.attempts.filter (eligibleForProcessing db) = [] := by
      rw [List.filter_eq_nil_iff]
      intro b _
      unfold eligibleForProcessing
      rw [hcount]
      simp
    rw [hfil]
    rfl
  have htp : testsToProcess db attempt = [] := by
    rw [List.eq_nil_iff_forall_not_mem]
    intro t ht
    obtain ⟨h1, h2⟩ := List.mem_filter.mp ht
    have : t ∈ activeTests db :=
      List.mem_filter.mpr ⟨h1, by simp [Bool.and_eq_true] at h2; exact by simp [h2.1]⟩
    rw [hact] at this
    cases this
  refine ⟨hsel, ?_, ?_⟩ <;> simp [processAttempt, htp]

/-- Witness for C7 (amended): applied to the database that holds attempt 8
and zero tests. -/
theorem C7_zero_active_tests_witness :
    selectNextAttempt exDb7 = none ∧
    (processAttempt exDb7 exAttempt8 alwaysClaim neverEval).avgWritten = none ∧
    (processAttempt exDb7 exAttempt8 alwaysClaim neverEval).finalResults =
      exDb7.testResults :=
  C7_zero_active_tests exDb7 exAttempt8 alwaysClaim neverEval (by decide)

/-- C10: if a poll of the startTasker loop finds no eligible attempt, the
worker destroys the data source before sleeping; since the loop never
re-initializes it, every later iteration fails its database operations
inside the catch and the loop never processes another attempt: the
connection stays destroyed, the database no longer changes, and the
processed counter never advances. -/
theorem C10_idle_destroys_connection (claimO : Nat → Bool)
    (evalO : Nat → Option TaskerEvalOutcome) (s : LoopState)
    (hconn : s.connected = true) (hidle : selectNextAttempt s.db = none) :
    ((taskerStep claimO evalO s).connected = false ∧
      (taskerStep claimO evalO s).db = s.db ∧
      (taskerStep claimO evalO s).processedCount = s.processedCount) ∧
    ∀ k, ((taskerStep claimO evalO)^[k] (taskerStep claimO evalO s)).connected = false ∧
      ((taskerStep claimO evalO)^[k] (taskerStep claimO evalO s)).db = s.db ∧
      ((taskerStep claimO evalO)^[k] (taskerStep claimO evalO s)).processedCount =
        s.processedCount := by
  have hstep : taskerStep claimO evalO s = { s with connected := false } := by
    unfold taskerStep
    rw [if_pos hconn, hidle]
  have hinv : ∀ s2 : LoopState, s2.connected = false →
      taskerStep claimO evalO s2 = { s2 with errorCount := s2.errorCount + 1 } := by
    intro s2 h2
    unfold taskerStep
    rw [h2]
    rfl
  refine ⟨⟨by rw [hstep], by rw [hstep], by rw [hstep]⟩, ?_⟩
  intro k
  induction k with
  | zero =>
    refine ⟨?_, ?_, ?_⟩ <;> simp [Function.iterate_zero_apply, hstep]
  | succ n ihn =>
    obtain ⟨h1, h2, h3⟩ := ihn
    rw [Function.iterate_succ_apply', hinv _ h1]
    exact ⟨h1, h2, h3⟩

/-- Witness for C10: applied to the connected loop state over the database
with attempt 8 and zero tests, on which the poll is idle. -/
theorem C10_idle_destroys_connection_witness :
    ((taskerStep alwaysClaim neverEval exLoop).connected = false ∧
      (taskerStep alwaysClaim neverEval exLoop).db = exLoop.db ∧
      (taskerStep alwaysClaim neverEval exLoop).processedCount = exLoop.processedCount) ∧
    ∀ k, ((taskerStep alwaysClaim neverEval)^[k]
        (taskerStep alwaysClaim neverEval exLoop)).connected = false ∧
      ((taskerStep alwaysClaim neverEval)^[k]
        (taskerStep alwaysClaim neverEval exLoop)).db = exLoop.db ∧
      ((taskerStep alwaysClaim neverEval)^[k]
        (taskerStep alwaysClaim neverEval exLoop)).processedCount = exLoop.processedCount :=
  C10_idle_destroys_connection alwaysClaim neverEval exLoop rfl (by decide)

/-- Helper: a conflict already present in a table is still present after
any rows are appended. -/
theorem hasConflict_append (table added : List StoredTest) (e : StoredTest)
    (h : hasConflict table e = true) : hasConflict (table ++ added) e = true := by
  unfold hasConflict at h ⊢
  rw [List.any_append, h]
  rfl

/-- Helper: upsert only appends rows: the input table is a prefix of the
output table. -/
theorem upsertTests_extends :
    ∀ (es : List StoredTest) (table : List StoredTest),
    ∃ added, (upsertTests table es).1 = table ++ added := by
  intro es
  induction es with
  | nil => intro table; exact ⟨[], by simp [upsertTests]⟩
  | cons e rest ih =>
    intro table
    by_cases hc : hasConflict table e = true
    · obtain ⟨added, ha⟩ := ih table
      exact ⟨added, by simp only [upsertTests, if_pos hc, ha]⟩
    · obtain ⟨added, ha⟩ := ih (table ++ [e])
      refine ⟨[e] ++ added, ?_⟩
      simp only [upsertTests, if_neg hc]
      rw [ha, List.append_assoc]

/-- Helper: the count returned by upsert equals the number of rows the
table grew by. -/
theorem upsertTests_length :
    ∀ (es : List StoredTest) (table : List StoredTest),
    (upsertTests table es).1.length = table.length + (upsertTests table es).2 := by
  intro es
  induction es with
  | nil => intro table; rfl
  | cons e rest ih =>
    intro table
    by_cases hc : hasConflict table e = true
    · simp only [upsertTests, if_pos hc]
      exact ih table
    · simp only [upsertTests, if_neg hc]
      have := ih (table ++ [e])
      rw [this]
      simp only [List.length_append, List.length_cons, List.length_nil]
      omega

/-- Helper: after an upsert, every entity of the batch has its conflict
key present in the resulting table. -/
theorem upsertTests_covers :
    ∀ (es : List StoredTest) (table : List StoredTest) (e : StoredTest), e ∈ es →
    hasConflict (upsertTests table es).1 e = true := by
  intro es
  induction es with
  | nil => intro table e he; cases he
  | cons x rest ih =>
    intro table e he
    by_cases hc : hasConflict table x = true
    · simp only [upsertTests, if_pos hc]
      rcases List.mem_cons.mp he with hex | her
      · obtain ⟨added, ha⟩ := upsertTests_extends rest table
        rw [ha, hex]
        exact hasConflict_append _ _ _ hc
      · exact ih table e her
    · simp only [upsertTests, if_neg hc]
      rcases List.mem_cons.mp he with hex | her
      · obtain ⟨added, ha⟩ := upsertTests_extends rest (table ++ [x])
        rw [ha, hex]
        simp [hasConflict, List.any_append]
      · exact ih (table ++ [x]) e her

/-- Helper: upserting a batch whose every conflict key is already present
changes nothing and returns 0. -/
theorem upsertTests_noop :
    ∀ (es : List StoredTest) (table : List StoredTest),
    (∀ e ∈ es, hasConflict table e = true) → upsertTests table es = (table, 0) := by
  intro es
  induction es with
  | nil => intro table _; rfl
  | cons x rest ih =>
    intro table hall
    have hx : hasConflict table x = true := hall x (List.mem_cons_self x rest)
    simp only [upsertTests, if_pos hx]
    exact ih table (fun e he => hall e (List.mem_cons_of_mem x he))

/-- C8: bulk test ingestion is idempotent.  In general: the ingested table
extends the input table (existing rows are not updated), the returned
count is exactly the number of newly inserted rows, and re-ingesting the
same batch inserts nothing and returns 0.  Concretely, ingesting the batch
(M, P1), (M, P2), (M, P1) into an empty table returns 2, a second
identical call returns 0, and the table then holds exactly two rows for
model M. -/
theorem C8_ingestion :
    (∀ (table : List StoredTest) (testCaseResults : List TestCaseResult)
        (model datasetName : String),
      (∃ added, (storeProcessedTestCases table testCaseResults model datasetName).1 =
        table ++ added) ∧
      (storeProcessedTestCases table testCaseResults model datasetName).1.length =
        table.length + (storeProcessedTestCases table testCaseResults model datasetName).2 ∧
      storeProcessedTestCases
          (storeProcessedTestCases table testCaseResults model datasetName).1
          testCaseResults model datasetName =
        ((storeProcessedTestCases table testCaseResults model datasetName).1, 0)) ∧
    (storeProcessedTestCases [] exIngest "M" "D").2 = 2 ∧
    (storeProcessedTestCases (storeProcessedTestCases [] exIngest "M" "D").1
      exIngest "M" "D").2 = 0 ∧
    ((storeProcessedTestCases [] exIngest "M" "D").1.filter
      (fun r => r.model == "M")).length = 2 := by
  refine ⟨?_, by decide, by decide, by decide⟩
  intro table testCaseResults model datasetName
  by_cases hemp : testCaseResults.isEmpty
  · simp only [storeProcessedTestCases, hemp, if_true]
    exact ⟨⟨[], by simp⟩, by simp, by simp⟩
  · simp only [storeProcessedTestCases, hemp, Bool.false_eq_true, if_false]
    refine ⟨upsertTests_extends _ _, upsertTests_length _ _, ?_⟩
    exact upsertTests_noop _ _ (fun e he => upsertTests_covers _ _ e he)

/-- Helper: the lexicographic comparison is antisymmetric on character
lists. -/
theorem charListLe_antisymm :
    ∀ (x y : List Char), charListLe x y = true → charListLe y x = true → x = y := by
  intro x
  induction x with
  | nil =>
    intro y _ hyx
    cases y with
    | nil => rfl
    | cons b bs => simp [charListLe] at hyx
  | cons a as ih =>
    intro y hxy hyx
    cases y with
    | nil => simp [charListLe] at hxy
    | cons b bs =>
      simp only [charListLe] at hxy hyx
      by_cases hab : a.toNat < b.toNat
      · rw [if_neg (show ¬b.toNat < a.toNat by omega), if_pos hab] at hyx
        cases hyx
      · by_cases hba : b.toNat < a.toNat
        · rw [if_neg hab, if_pos hba] at hxy
          cases hxy
        · rw [if_neg hab, if_neg hba] at hxy
          rw [if_neg hba, if_neg hab] at hyx
          have hvals : a.toNat = b.toNat := by omega
          have hchar : a = b := by
            have hv : a.val = b.val := by
              have h1 : a.val.toNat = b.val.toNat := hvals
              exact UInt32.ext h1
            cases a
            cases b
            simp only at hv
            simp [hv]
          rw [hchar, ih bs hxy hyx]

/-- Helper: two key-sorted field lists with the same elements and
duplicate-free keys are identical. -/
theorem sorted_keyLe_nodup_eq :
    ∀ (u v : List (String × String)), u.Perm v → List.Sorted keyLe u →
    List.Sorted keyLe v → (u.map Prod.fst).Nodup → u = v := by
  intro u
  induction u with
  | nil =>
    intro v hperm _ _ _
    exact (List.Perm.eq_nil hperm.symm).symm
  | cons a u2 ih =>
    intro v hperm hsu hsv hnd
    cases v with
    | nil => cases List.Perm.eq_nil hperm
    | cons b v2 =>
      by_cases hab : a = b
      · subst hab
        have htail := hperm.cons_inv
        have hsu2 := (List.sorted_cons.mp hsu).2
        have hsv2 := (List.sorted_cons.mp hsv).2
        have hnd2 := (List.nodup_cons.mp hnd).2
        rw [ih v2 htail hsu2 hsv2 hnd2]
      · exfalso
        have hav : a ∈ b :: v2 := hperm.mem_iff.mp (List.mem_cons_self a u2)
        have hav2 : a ∈ v2 := by
          rcases List.mem_cons.mp hav with h | h
          · exact absurd h hab
          · exact h
        have hbu : b ∈ a :: u2 := hperm.symm.mem_iff.mp (List.mem_cons_self b v2)
        have hbu2 : b ∈ u2 := by
          rcases List.mem_cons.mp hbu with h | h
          · exact absurd h.symm hab
          · exact h
        have hkab : keyLe a b := (List.sorted_cons.mp hsu).1 b hbu2
        have hkba : keyLe b a := (List.sorted_cons.mp hsv).1 a hav2
        have hkeys : a.1.toList = b.1.toList := charListLe_antisymm _ _ hkab hkba
        have hkey : a.1 = b.1 := by
          have h1 : a.1.data = b.1.data := hkeys
          cases ha : a.1
          cases hb : b.1
          rw [ha, hb] at h1
          simp only at h1
          rw [h1]
        have hnotin : a.1 ∉ u2.map Prod.fst := (List.nodup_cons.mp hnd).1
        exact hnotin (hkey ▸ List.mem_map_of_mem Prod.fst hbu2)

/-- Helper: field serialization is the map that stringifies each value,
keeping the key. -/
theorem serializeFields_eq_map (l : List (String × Json)) :
    serializeFields l = l.map (fun p => (p.1, stableStringify p.2)) := by
  induction l with
  | nil => rfl
  | cons p rest ih =>
    cases p
    rw [serializeFields, List.map_cons, ih]

/-- C9: canonical request equality.  First, the canonical serialization of
the getModelAnswer request payload is a function of (task, options,
model): two evaluator calls with equal inputs produce byte-equal
request_json strings.  Second, the serialization is canonical: the bytes
do not depend on the order in which the payload object fields were
assembled, because keys are sorted before rendering. -/
theorem C9_canonical_requests :
    (∀ (task₁ task₂ : String) (options₁ options₂ : List String) (model₁ model₂ : String),
      task₁ = task₂ → options₁ = options₂ → model₁ = model₂ →
      stableStringify (getModelAnswerPayload task₁ options₁ model₁) =
        stableStringify (getModelAnswerPayload task₂ options₂ model₂)) ∧
    (∀ (l₁ l₂ : List (String × Json)), l₁.Perm l₂ → (l₁.map Prod.fst).Nodup →
      stableStringify (Json.obj l₁) = stableStringify (Json.obj l₂)) := by
  constructor
  · intro task₁ task₂ options₁ options₂ model₁ model₂ h1 h2 h3
    rw [h1, h2, h3]
  · intro l₁ l₂ hperm hnodup
    have hp : (serializeFields l₁).Perm (serializeFields l₂) := by
      rw [serializeFields_eq_map, serializeFields_eq_map]
      exact hperm.map _
    have hkeys : ((serializeFields l₁).map Prod.fst).Nodup := by
      rw [serializeFields_eq_map, List.map_map]
      exact hnodup
    have hperm2 : (List.insertionSort keyLe (serializeFields l₁)).Perm
        (List.insertionSort keyLe (serializeFields l₂)) :=
      (List.perm_insertionSort keyLe _).trans
        (hp.trans (List.perm_insertionSort keyLe _).symm)
    have hnodup2 : ((List.insertionSort keyLe (serializeFields l₁)).map Prod.fst).Nodup :=
      (((List.perm_insertionSort keyLe _).map Prod.fst).nodup_iff).mpr hkeys
    have heq := sorted_keyLe_nodup_eq _ _ hperm2
      (List.sorted_insertionSort keyLe (serializeFields l₁))
      (List.sorted_insertionSort keyLe (serializeFields l₂)) hnodup2
    simp only [stableStringify]
    rw [heq]

/-- Witness for C9: equal concrete inputs give byte-equal payload strings,
and a concrete two-field object serializes identically when its fields
are permuted. -/
theorem C9_canonical_requests_witness :
    stableStringify (getModelAnswerPayload "t" ["x"] "m") =
      stableStringify (getModelAnswerPayload "t" ["x"] "m") ∧
    stableStringify (Json.obj [("b", Json.null), ("a", Json.null)]) =
      stableStringify (Json.obj [("a", Json.null), ("b", Json.null)]) :=
  ⟨C9_canonical_requests.1 "t" "t" ["x"] ["x"] "m" "m" rfl rfl rfl,
   C9_canonical_requests.2 _ _ (List.Perm.swap ("a", Json.null) ("b", Json.null) [])
     (by decide)⟩

end PCC
